import Mathlib

/-!
Shallow embedding of the b64d tool (src/main.go): a line-oriented scanner that
extracts base64-looking substrings, length-validates them, tries up to four
decode variants, filters decoded bytes by a printable-ratio heuristic, and
prints the survivors.  Strings from the Go side are modelled as `List Char`
(lines, candidates) or `List Nat` (decoded byte sequences); the per-run
mutable counters and the two output streams are carried in an explicit
`RunState`.
-/

set_option autoImplicit false

namespace B64D

/-- Configuration (src/main.go, `type Config`): flags parsed once at startup.
`maxSize` only gates the file-size check before reading starts and plays no
role in the per-line pipeline, so it is omitted here. -/
structure Config where
  urlSafe : Bool
  minLength : Nat
  verbose : Bool
  showOffset : Bool
  deriving DecidableEq

/-- Default flag values (src/main.go, `init`): urlSafe=false, min=4,
verbose=false, offset=false. -/
def defaultConfig : Config := ⟨false, 4, false, false⟩

/-- src/main.go, `maxMatches = 10000`. -/
def maxMatches : Nat := 10000

/-- Membership in the standard-alphabet character class `[A-Za-z0-9+/]`
of `stdB64Pattern` (src/main.go line 33). -/
def isStdChar (c : Char) : Bool :=
  decide ((65 ≤ c.toNat ∧ c.toNat ≤ 90) ∨ (97 ≤ c.toNat ∧ c.toNat ≤ 122) ∨
    (48 ≤ c.toNat ∧ c.toNat ≤ 57) ∨ c.toNat = 43 ∨ c.toNat = 47)

/-- Membership in the URL-safe character class of `urlB64Pattern`
(src/main.go line 35): same as the standard class with `-_` in place
of `+/`. -/
def isUrlChar (c : Char) : Bool :=
  decide ((65 ≤ c.toNat ∧ c.toNat ≤ 90) ∨ (97 ≤ c.toNat ∧ c.toNat ≤ 122) ∨
    (48 ≤ c.toNat ∧ c.toNat ≤ 57) ∨ c.toNat = 45 ∨ c.toNat = 95)

/-- Model of `FindAllString` of the pattern `[class]{4,}={0,2}` over a line,
left-to-right, greedy, non-overlapping (src/main.go lines 150 and 161),
as a one-character-at-a-time state machine.  `run` accumulates the current
(reversed) maximal run of class characters; `oneEq` records that a run of at
least 4 class characters has ended and exactly one `=` has been consumed, so
the next character decides between one and two padding signs.  A match is a
maximal run of at least 4 class characters followed by at most 2 `=` signs;
shorter runs are discarded, and scanning resumes immediately after each
match. -/
def scanA (isAl : Char → Bool) (oneEq : Bool) (run : List Char) :
    List Char → List (List Char)
  | [] =>
    if oneEq then [run.reverse ++ ['=']]
    else if 4 ≤ run.length then [run.reverse] else []
  | c :: rest =>
    if oneEq then
      if c = '=' then (run.reverse ++ ['=', '=']) :: scanA isAl false [] rest
      else if isAl c then (run.reverse ++ ['=']) :: scanA isAl false [c] rest
      else (run.reverse ++ ['=']) :: scanA isAl false [] rest
    else
      if isAl c then scanA isAl false (c :: run) rest
      else if 4 ≤ run.length then
        if c = '=' then scanA isAl true run rest
        else run.reverse :: scanA isAl false [] rest
      else scanA isAl false [] rest

/-- All matches of one of the two base64 patterns in a line. -/
def findAll (isAl : Char → Bool) (line : List Char) : List (List Char) :=
  scanA isAl false [] line

/-- Model of `strings.TrimRight(s, "=")` (src/main.go line 176). -/
def trimTrailingEq (s : List Char) : List Char :=
  (s.reverse.dropWhile (fun c => c == '=')).reverse

/-- src/main.go, `isValidBase64Length`: after stripping the `=` padding the
length must be 0, 2 or 3 modulo 4. -/
def isValidBase64Length (s : List Char) : Bool :=
  decide ((trimTrailingEq s).length % 4 = 0 ∨ (trimTrailingEq s).length % 4 = 2 ∨
    (trimTrailingEq s).length % 4 = 3)

/-- One pass of the filter-and-deduplicate loop in `findBase64Patterns`
(src/main.go lines 150-157 and 161-168): keep matches that are at least
`minLength` long and length-valid, appending each in first-occurrence order;
the accumulated list doubles as the `seen` set. -/
def addMatches (cfg : Config) (acc : List (List Char)) (ms : List (List Char)) :
    List (List Char) :=
  ms.foldl (fun acc m =>
    if cfg.minLength ≤ m.length ∧ isValidBase64Length m = true then
      if m ∈ acc then acc else acc ++ [m]
    else acc) acc

/-- src/main.go, `findBase64Patterns`: the standard-pattern pass, followed by
the URL-safe pass when `urlSafe` is set, sharing one deduplication set. -/
def findBase64Patterns (cfg : Config) (line : List Char) : List (List Char) :=
  let acc := addMatches cfg [] (findAll isStdChar line)
  if cfg.urlSafe then addMatches cfg acc (findAll isUrlChar line) else acc

/-- First output byte of a base64 quantum from 6-bit values `x`, `y`. -/
def q1 (x y : Nat) : Nat := x * 4 + y / 16

/-- Second output byte of a base64 quantum from 6-bit values `y`, `z`. -/
def q2 (y z : Nat) : Nat := y % 16 * 16 + z / 4

/-- Third output byte of a base64 quantum from 6-bit values `z`, `w`. -/
def q3 (z w : Nat) : Nat := z % 4 * 64 + w

/-- Decode map of the standard alphabet (`encoding/base64.StdEncoding`). -/
def stdDmap (c : Char) : Option Nat :=
  let n := c.toNat
  if 65 ≤ n ∧ n ≤ 90 then some (n - 65)
  else if 97 ≤ n ∧ n ≤ 122 then some (n - 97 + 26)
  else if 48 ≤ n ∧ n ≤ 57 then some (n - 48 + 52)
  else if n = 43 then some 62
  else if n = 47 then some 63
  else none

/-- Decode map of the URL-safe alphabet (`encoding/base64.URLEncoding`). -/
def urlDmap (c : Char) : Option Nat :=
  let n := c.toNat
  if 65 ≤ n ∧ n ≤ 90 then some (n - 65)
  else if 97 ≤ n ∧ n ≤ 122 then some (n - 97 + 26)
  else if 48 ≤ n ∧ n ≤ 57 then some (n - 48 + 52)
  else if n = 45 then some 62
  else if n = 95 then some 63
  else none

/-- Model of `DecodeString` of a padded Go base64 encoding, after newline stripping:
the input is consumed in quanta of four characters; `=` may appear only to
complete the final quantum (at positions 2-3, never at 0-1), and nothing may
follow it.  Go`s default encodings do not check the unused trailing bits, so
neither does this model. -/
def decodePadded (dmap : Char → Option Nat) : List Char → Option (List Nat)
  | [] => some []
  | a :: b :: c :: d :: rest =>
    match dmap a, dmap b with
    | some x, some y =>
      if c = '=' then
        if d = '=' ∧ rest = [] then some [q1 x y] else none
      else
        match dmap c with
        | some z =>
          if d = '=' then
            if rest = [] then some [q1 x y, q2 y z] else none
          else
            match dmap d with
            | some w => (decodePadded dmap rest).map (fun bs => q1 x y :: q2 y z :: q3 z w :: bs)
            | none => none
        | none => none
    | _, _ => none
  | _ => none

/-- Model of `DecodeString` of a raw (unpadded) Go base64 encoding, after newline
stripping: full quanta of four characters, with a final partial quantum of
two or three characters allowed and one leftover character rejected; `=` is
not in the alphabet. -/
def decodeRaw (dmap : Char → Option Nat) : List Char → Option (List Nat)
  | [] => some []
  | a :: b :: c :: d :: rest =>
    match dmap a, dmap b, dmap c, dmap d with
    | some x, some y, some z, some w =>
      (decodeRaw dmap rest).map (fun bs => q1 x y :: q2 y z :: q3 z w :: bs)
    | _, _, _, _ => none
  | [a, b] =>
    match dmap a, dmap b with
    | some x, some y => some [q1 x y]
    | _, _ => none
  | [a, b, c] =>
    match dmap a, dmap b, dmap c with
    | some x, some y, some z => some [q1 x y, q2 y z]
    | _, _, _ => none
  | [_] => none

/-- One `DecodeString` call of Go`s encoding/base64: the decoder skips `\r`
and `\n` wherever they occur (modelled by filtering them out up front), then
runs the padded or the raw quantum loop. -/
def goDecode (dmap : Char → Option Nat) (padded : Bool) (s : List Char) :
    Option (List Nat) :=
  let t := s.filter fun c => !(c == '\r' || c == '\n')
  if padded then decodePadded dmap t else decodeRaw dmap t

/-- src/main.go, `decodeBase64`: standard padded first; then, if urlSafe,
URL-safe padded and URL-safe raw; finally standard raw.  `none` models the
`DecodeError("invalid base64")` returned when every attempt fails. -/
def decodeBase64 (cfg : Config) (s : List Char) : Option (List Nat) :=
  match goDecode stdDmap true s with
  | some d => some d
  | none =>
    if cfg.urlSafe then
      match goDecode urlDmap true s with
      | some d => some d
      | none =>
        match goDecode urlDmap false s with
        | some d => some d
        | none =>
          match goDecode stdDmap false s with
          | some d => some d
          | none => none
    else
      match goDecode stdDmap false s with
      | some d => some d
      | none => none

/-- Fuelled worker for `utf8Runes`: one unit of fuel is spent per decoded
rune, and every step consumes at least one byte, so fuel equal to the byte
count always suffices. -/
def utf8RunesF : Nat → List Nat → List Nat
  | 0, _ => []
  | _ + 1, [] => []
  | fuel + 1, b0 :: rest =>
    if b0 < 0x80 then b0 :: utf8RunesF fuel rest
    else if b0 < 0xC2 then 0xFFFD :: utf8RunesF fuel rest
    else if b0 ≤ 0xDF then
      match rest with
      | b1 :: rest1 =>
        if 0x80 ≤ b1 ∧ b1 ≤ 0xBF then ((b0 - 0xC0) * 64 + (b1 - 0x80)) :: utf8RunesF fuel rest1
        else 0xFFFD :: utf8RunesF fuel rest
      | [] => [0xFFFD]
    else if b0 ≤ 0xEF then
      match rest with
      | b1 :: rest1 =>
        if (if b0 = 0xE0 then 0xA0 ≤ b1 ∧ b1 ≤ 0xBF
            else if b0 = 0xED then 0x80 ≤ b1 ∧ b1 ≤ 0x9F
            else 0x80 ≤ b1 ∧ b1 ≤ 0xBF) then
          match rest1 with
          | b2 :: rest2 =>
            if 0x80 ≤ b2 ∧ b2 ≤ 0xBF then
              ((b0 - 0xE0) * 4096 + (b1 - 0x80) * 64 + (b2 - 0x80)) :: utf8RunesF fuel rest2
            else 0xFFFD :: utf8RunesF fuel rest
          | [] => [0xFFFD]
        else 0xFFFD :: utf8RunesF fuel rest
      | [] => [0xFFFD]
    else if b0 ≤ 0xF4 then
      match rest with
      | b1 :: rest1 =>
        if (if b0 = 0xF0 then 0x90 ≤ b1 ∧ b1 ≤ 0xBF
            else if b0 = 0xF4 then 0x80 ≤ b1 ∧ b1 ≤ 0x8F
            else 0x80 ≤ b1 ∧ b1 ≤ 0xBF) then
          match rest1 with
          | b2 :: rest2 =>
            if 0x80 ≤ b2 ∧ b2 ≤ 0xBF then
              match rest2 with
              | b3 :: rest3 =>
                if 0x80 ≤ b3 ∧ b3 ≤ 0xBF then
                  ((b0 - 0xF0) * 262144 + (b1 - 0x80) * 4096 + (b2 - 0x80) * 64 + (b3 - 0x80))
                    :: utf8RunesF fuel rest3
                else 0xFFFD :: utf8RunesF fuel rest
              | [] => [0xFFFD]
            else 0xFFFD :: utf8RunesF fuel rest
          | [] => [0xFFFD]
        else 0xFFFD :: utf8RunesF fuel rest
      | [] => [0xFFFD]
    else 0xFFFD :: utf8RunesF fuel rest

/-- The rune sequence produced by Go`s `for _, r := range s` over a byte
string: UTF-8 decoding with the strict acceptance ranges of
`utf8.DecodeRuneInString`; every invalid byte yields U+FFFD and advances by
one byte. -/
def utf8Runes (bs : List Nat) : List Nat := utf8RunesF bs.length bs

/-- Model of Go`s `unicode.IsSpace`: exactly the code points with the Unicode
White_Space property, transcribed in full from the `unicode.White_Space`
range table. -/
def goIsSpace (r : Nat) : Bool :=
  decide ((9 ≤ r ∧ r ≤ 13) ∨ r = 32 ∨ r = 0x85 ∨ r = 0xA0 ∨ r = 0x1680 ∨
    (0x2000 ≤ r ∧ r ≤ 0x200A) ∨ r = 0x2028 ∨ r = 0x2029 ∨ r = 0x202F ∨
    r = 0x205F ∨ r = 0x3000)

/-- Model of Go`s `unicode.IsPrint` (categories L, M, N, P, S plus the ASCII
space).  The table is transcribed exactly for the Basic Latin and Latin-1
blocks (printable there: 0x20-0x7E and 0xA1-0xFF minus the soft hyphen 0xAD),
which covers every code point at which this development evaluates the
function; code points of the higher blocks, where the development only ever
treats the function as an opaque classifier, are over-approximated as
printable (the real table also excludes the higher control, separator and
unassigned code points). -/
def goIsPrint (r : Nat) : Bool :=
  if r < 0x100 then decide ((32 ≤ r ∧ r ≤ 126) ∨ (0xA1 ≤ r ∧ r ≠ 0xAD))
  else true

/-- The per-character acceptance test of the output filter loop
(src/main.go line 221): printable, or one of newline, carriage return,
tab. -/
def accChar (r : Nat) : Bool :=
  goIsPrint r || r == 10 || r == 13 || r == 9

/-- The character loop of `isValidOutput` (src/main.go lines 219-227):
count accepted characters, skip other whitespace, abort on anything else. -/
def countPrintable : List Nat → Option Nat
  | [] => some 0
  | r :: rs =>
    if accChar r then (countPrintable rs).map (· + 1)
    else if goIsSpace r then countPrintable rs
    else none

/-- src/main.go, `isValidOutput`: reject the empty string; scan the runes of
the decoded bytes, rejecting on a non-printable non-whitespace rune; finally
require printableCount / len(s) ≥ 0.75.  The denominator `len(s)` is the
BYTE length of the Go string while the loop counts runes.  The float64
comparison is modelled by the exact test 3*len ≤ 4*count, with which it
agrees for all lengths below 2^52 (the pipeline caps lines at 64KiB). -/
def isValidOutput (bs : List Nat) : Bool :=
  if bs.isEmpty then false
  else
    match countPrintable (utf8Runes bs) with
    | none => false
    | some k => decide (3 * bs.length ≤ 4 * k)

/-- src/main.go, `truncate`: cap a candidate at `maxLen` characters, with an
ellipsis when it was longer. -/
def truncate (s : List Char) (maxLen : Nat) : List Char :=
  if s.length ≤ maxLen then s else s.take maxLen ++ ['.', '.', '.']

/-- One message on the diagnostic stream (stderr).  The exact `Fprintf`
formatting is cosmetic (spec section 1) and is abstracted to the event and
its arguments. -/
inductive Diag where
  | limitWarning : Diag
  | decodeErr : Nat → List Char → Diag
  | stats : Nat → Nat → Diag
  deriving DecidableEq

/-- The run-scoped mutable state of `findAndDecode`: the two counters and
what has been written to the two streams so far. -/
structure RunState where
  totalFound : Nat
  totalDecoded : Nat
  stdout : List (List Nat)
  stderr : List Diag
  deriving DecidableEq

/-- Counters at zero, nothing printed. -/
def initState : RunState := ⟨0, 0, [], []⟩

/-- ASCII bytes of a Lean string literal (used for the `Line N: ` output
prefix). -/
def asciiBytes (s : String) : List Nat := s.toList.map Char.toNat

/-- What one accepted decoding contributes to stdout (src/main.go lines
120-124): the decoded bytes, prefixed with `Line N: ` when showOffset is
set. -/
def emitLine (cfg : Config) (ln : Nat) (d : List Nat) : List Nat :=
  if cfg.showOffset then asciiBytes ("Line " ++ Nat.repr ln ++ ": ") ++ d else d

/-- The body of the per-match loop once the cap check has passed
(src/main.go lines 105-129): count the candidate, attempt the decode
(logging a failure when verbose), filter the decoded bytes, and print the
survivors.  The `patterns` slice of the Go code is appended to but never
read, so it is not modelled. -/
def stepMatch (cfg : Config) (ln : Nat) (st : RunState) (m : List Char) : RunState :=
  let st1 : RunState := { st with totalFound := st.totalFound + 1 }
  match decodeBase64 cfg m with
  | none =>
    if cfg.verbose then { st1 with stderr := st1.stderr ++ [Diag.decodeErr ln (truncate m 20)] }
    else st1
  | some d =>
    if isValidOutput d then
      { st1 with totalDecoded := st1.totalDecoded + 1, stdout := st1.stdout ++ [emitLine cfg ln d] }
    else st1

/-- The per-match loop with its cap check (src/main.go lines 98-129): before
each candidate, when `totalFound` has reached `maxMatches` the warning is
printed (if verbose) and the whole run returns early; the Boolean of the
result records that early return. -/
def runMatches (cfg : Config) (ln : Nat) : RunState → List (List Char) → RunState × Bool
  | st, [] => (st, false)
  | st, m :: ms =>
    if maxMatches ≤ st.totalFound then
      (if cfg.verbose then { st with stderr := st.stderr ++ [Diag.limitWarning] } else st, true)
    else runMatches cfg ln (stepMatch cfg ln st m) ms

/-- The per-line scan loop of `findAndDecode` (src/main.go lines 91-130):
line numbers start at 1, and an early return from the match loop aborts the
whole scan. -/
def runLines (cfg : Config) : Nat → RunState → List (List Char) → RunState × Bool
  | _, st, [] => (st, false)
  | ln, st, l :: ls =>
    let r := runMatches cfg (ln + 1) st (findBase64Patterns cfg l)
    if r.2 then r else runLines cfg (ln + 1) r.1 ls

/-- src/main.go, `findAndDecode`, on an input already split into lines: scan
all lines, then print the statistics summary if verbose — but only on the
normal-completion path, since the match-cap early return skips it. -/
def findAndDecode (cfg : Config) (lines : List (List Char)) : RunState × Bool :=
  let r := runLines cfg 0 initState lines
  if r.2 then r
  else if cfg.verbose then
    ({ r.1 with stderr := r.1.stderr ++ [Diag.stats r.1.totalFound r.1.totalDecoded] }, false)
  else r

/-- Number of trailing `=` padding characters of a candidate (claim C6:
"strip trailing `=` characters"). -/
def trailingEqCount (s : List Char) : Nat :=
  (s.reverse.takeWhile (fun c => c == '=')).length

/-- Length of a candidate after stripping the trailing padding, as the
spec words it. -/
def strippedLenSpec (s : List Char) : Nat := s.length - trailingEqCount s

/-- The ordered list of decode attempts of claim C3: standard padded, then
(when urlSafe) URL-safe padded and URL-safe raw, then standard raw. -/
def decodeVariants (cfg : Config) (s : List Char) : List (Option (List Nat)) :=
  [goDecode stdDmap true s] ++
    (if cfg.urlSafe then [goDecode urlDmap true s, goDecode urlDmap false s] else []) ++
    [goDecode stdDmap false s]

/-- The result of the first attempt in the list that succeeds, if any. -/
def firstSuccess : List (Option (List Nat)) → Option (List Nat)
  | [] => none
  | some d :: _ => some d
  | none :: rest => firstSuccess rest

/-- The output-filter rule exactly as claim C1 words it: every character is
classified three ways (counted, neutral whitespace, or rejecting), and the
sequence is accepted iff no character rejects and printable-count divided by
the CHARACTER count of the sequence is at least 0.75. -/
def outputFilterClaimRule (bs : List Nat) : Bool :=
  (utf8Runes bs).all (fun r => accChar r || goIsSpace r) &&
    decide (3 * (utf8Runes bs).length ≤ 4 * (utf8Runes bs).countP accChar)

/-- The rule of claim C1 amended at its only point of failure: the ratio
denominator is the BYTE length of the decoded sequence (Go`s `len(s)`), not
its character count. -/
def outputFilterRule (bs : List Nat) : Bool :=
  (utf8Runes bs).all (fun r => accChar r || goIsSpace r) &&
    decide (3 * bs.length ≤ 4 * (utf8Runes bs).countP accChar)

/-- Character of the standard base64 alphabet at index `n` (valid for
`n < 64`). -/
def encChar (n : Nat) : Char :=
  if n < 26 then Char.ofNat (65 + n)
  else if n < 52 then Char.ofNat (97 + (n - 26))
  else if n < 62 then Char.ofNat (48 + (n - 52))
  else if n = 62 then '+' else '/'

/-- Standard padded base64 encoding of a byte sequence — claim C8`s
"encoding it with standard padded base64" (RFC 4648, as produced by Go`s
`base64.StdEncoding.EncodeToString`). -/
def b64encode : List Nat → List Char
  | [] => []
  | [b1] => [encChar (b1 / 4), encChar (b1 % 4 * 16), '=', '=']
  | [b1, b2] => [encChar (b1 / 4), encChar (b1 % 4 * 16 + b2 / 16), encChar (b2 % 16 * 4), '=']
  | b1 :: b2 :: b3 :: rest =>
    encChar (b1 / 4) :: encChar (b1 % 4 * 16 + b2 / 16) :: encChar (b2 % 16 * 4 + b3 / 64) ::
      encChar (b3 % 64) :: b64encode rest

/-- Total number of candidates the finder yields over a list of lines; this
is exactly how often the per-match loop body of `findAndDecode` runs when no
cap intervenes. -/
def candCount (cfg : Config) (ls : List (List Char)) : Nat :=
  (ls.map fun l => (findBase64Patterns cfg l).length).sum

/-- Whether a statistics summary has been written to the diagnostic
stream. -/
def hasStats (l : List Diag) : Bool :=
  l.any fun d => match d with | Diag.stats _ _ => true | _ => false

/-- The input line of the end-to-end scenario of claim C2. -/
def c2Line : List Char := "user=aGVsbG8gd29ybGQ=&id=5".toList

/-- A line whose only candidate is `AAAA` (decodes to three zero bytes,
which the output filter rejects silently). -/
def lineAAAA : List Char := "AAAA".toList

/-- The default configuration with verbose diagnostics switched on. -/
def verboseConfig : Config := ⟨false, 4, true, false⟩

/-! ## Lemmas about the output filter -/

/-- The early-exit counting loop of `isValidOutput`, rephrased: it succeeds
iff no rune rejects, and then it returns the number of accepted runes. -/
theorem countPrintable_eq (rs : List Nat) :
    countPrintable rs =
      if rs.all (fun r => accChar r || goIsSpace r) then some (rs.countP accChar) else none := by
  induction rs with
  | nil => simp [countPrintable]
  | cons r rs ih =>
    simp only [countPrintable, List.all_cons, List.countP_cons]
    by_cases h1 : accChar r
    · by_cases h2 : rs.all (fun r => accChar r || goIsSpace r) <;>
        simp [h1, h2, ih]
    · by_cases h2 : goIsSpace r
      · simp [h1, h2, ih]
      · simp [h1, h2]

/-- C1: the claim fails on the code.  The two bytes 0xC3 0xA9 decode to the
single printable character U+00E9, so the rule of the claim (one printable
character out of one character) accepts, while `isValidOutput` divides the
one printable rune by the byte length 2 and rejects. -/
theorem c1_counterexample :
    outputFilterClaimRule [195, 169] = true ∧ isValidOutput [195, 169] = false := by
  decide

/-- C1 (amended): the output filter classifies each decoded character three
ways — printable-or-newline/CR/tab characters are counted, other whitespace
characters are neutral, and any remaining character rejects the whole
sequence — and a nonempty sequence is accepted iff printable-count divided
by the BYTE length of the sequence is at least 0.75. -/
theorem c1_output_filter (bs : List Nat) (h : bs ≠ []) :
    isValidOutput bs = outputFilterRule bs := by
  have hne : bs.isEmpty = false := by
    cases bs with
    | nil => exact absurd rfl h
    | cons b bs => rfl
  rw [isValidOutput, outputFilterRule, hne, countPrintable_eq]
  by_cases hall : (utf8Runes bs).all (fun r => accChar r || goIsSpace r) <;> simp [hall]

/-- C1 witness: the amended theorem evaluated at the single byte `h`. -/
theorem c1_output_filter_witness :
    ([104] : List Nat) ≠ [] ∧ isValidOutput [104] = outputFilterRule [104] :=
  ⟨by decide, c1_output_filter [104] (by decide)⟩

/-- C2: on the input line `user=aGVsbG8gd29ybGQ=&id=5` under the default
configuration, standard output is exactly `hello world`.  (The greedy
pattern makes the first candidate `user=`, which fails every decode variant
— five characters cannot form a padded quantum sequence and raw decoding
rejects `=` — so it contributes nothing; `aGVsbG8gd29ybGQ=` decodes to
`hello world`, which the filter accepts.) -/
theorem c2_end_to_end :
    (findAndDecode defaultConfig [c2Line]).1.stdout = [asciiBytes "hello world"] := by
  decide

/-- The function `decodeBase64` is the first-success fold over the ordered variant
list, failing iff every attempted variant fails. -/
theorem decodeBase64_variants (cfg : Config) (s : List Char) :
    decodeBase64 cfg s = firstSuccess (decodeVariants cfg s) ∧
      (decodeBase64 cfg s = none ↔ ∀ v ∈ decodeVariants cfg s, v = none) := by
  cases hu : cfg.urlSafe
  · rcases h1 : goDecode stdDmap true s with _ | d1
    · rcases h2 : goDecode stdDmap false s with _ | d2 <;>
        simp [decodeBase64, decodeVariants, firstSuccess, hu, h1, h2]
    · simp [decodeBase64, decodeVariants, firstSuccess, hu, h1]
  · rcases h1 : goDecode stdDmap true s with _ | d1
    · rcases h2 : goDecode urlDmap true s with _ | d2
      · rcases h3 : goDecode urlDmap false s with _ | d3
        · rcases h4 : goDecode stdDmap false s with _ | d4 <;>
            simp [decodeBase64, decodeVariants, firstSuccess, hu, h1, h2, h3, h4]
        · simp [decodeBase64, decodeVariants, firstSuccess, hu, h1, h2, h3]
      · simp [decodeBase64, decodeVariants, firstSuccess, hu, h1, h2]
    · simp [decodeBase64, decodeVariants, firstSuccess, hu, h1]

/-- C3: for every candidate string, the decoder attempts the variants in the
fixed order — standard padded, then (when urlSafe) URL-safe padded and
URL-safe raw, then standard raw — returning the first success, and it
returns the `invalid base64` error iff every attempted variant fails. -/
theorem c3_decode_variant_order (cfg : Config) (s : List Char) :
    decodeBase64 cfg s = firstSuccess (decodeVariants cfg s) ∧
      (decodeBase64 cfg s = none ↔ ∀ v ∈ decodeVariants cfg s, v = none) :=
  decodeBase64_variants cfg s

/-! ## Lemmas about the pattern scanner -/

theorem scanA_nil_oneEq (isAl : Char → Bool) (run : List Char) :
    scanA isAl true run [] = [run.reverse ++ ['=']] := by
  simp [scanA]

theorem scanA_nil (isAl : Char → Bool) (run : List Char) :
    scanA isAl false run [] = if 4 ≤ run.length then [run.reverse] else [] := by
  simp [scanA]

theorem scanA_cons_oneEq_pad (isAl : Char → Bool) (run cs : List Char) :
    scanA isAl true run ('=' :: cs) = (run.reverse ++ ['=', '=']) :: scanA isAl false [] cs := by
  simp [scanA]

theorem scanA_cons_oneEq_al (isAl : Char → Bool) (run : List Char) (c : Char) (cs : List Char)
    (hne : c ≠ '=') (hal : isAl c = true) :
    scanA isAl true run (c :: cs) = (run.reverse ++ ['=']) :: scanA isAl false [c] cs := by
  simp [scanA, hne, hal]

theorem scanA_cons_oneEq_other (isAl : Char → Bool) (run : List Char) (c : Char) (cs : List Char)
    (hne : c ≠ '=') (hal : isAl c = false) :
    scanA isAl true run (c :: cs) = (run.reverse ++ ['=']) :: scanA isAl false [] cs := by
  simp [scanA, hne, hal]

theorem scanA_cons_al (isAl : Char → Bool) (run : List Char) (c : Char) (cs : List Char)
    (hal : isAl c = true) :
    scanA isAl false run (c :: cs) = scanA isAl false (c :: run) cs := by
  simp [scanA, hal]

theorem scanA_cons_pad (isAl : Char → Bool) (run cs : List Char)
    (h4 : 4 ≤ run.length) (hal : isAl '=' = false) :
    scanA isAl false run ('=' :: cs) = scanA isAl true run cs := by
  simp [scanA, h4, hal]

theorem scanA_cons_endrun (isAl : Char → Bool) (run : List Char) (c : Char) (cs : List Char)
    (h4 : 4 ≤ run.length) (hal : isAl c = false) (hne : c ≠ '=') :
    scanA isAl false run (c :: cs) = run.reverse :: scanA isAl false [] cs := by
  simp [scanA, h4, hal, hne]

theorem scanA_cons_short (isAl : Char → Bool) (run : List Char) (c : Char) (cs : List Char)
    (h4 : ¬ 4 ≤ run.length) (hal : isAl c = false) :
    scanA isAl false run (c :: cs) = scanA isAl false [] cs := by
  simp [scanA, h4, hal]

/-- Scanning a run of class characters just accumulates them (reversed)
into the current run. -/
theorem scanA_append_run (isAl : Char → Bool) (r : List Char) :
    ∀ (acc rest : List Char), (∀ c ∈ r, isAl c = true) →
      scanA isAl false acc (r ++ rest) = scanA isAl false (r.reverse ++ acc) rest := by
  induction r with
  | nil => intro acc rest _; simp
  | cons c r ih =>
    intro acc rest h
    have hc : isAl c = true := h c (List.mem_cons_self c r)
    have hr : ∀ x ∈ r, isAl x = true := fun x hx => h x (List.mem_cons_of_mem c hx)
    rw [List.cons_append, scanA_cons_al isAl acc c (r ++ rest) hc, ih (c :: acc) rest hr]
    simp [List.append_assoc]

/-- A line that consists of one full pattern match — at least four class
characters followed by at most two `=` — scans to exactly that match. -/
theorem scan_full (isAl : Char → Bool) (r : List Char) (p : Nat)
    (hall : ∀ c ∈ r, isAl c = true) (hlen : 4 ≤ r.length) (hp : p ≤ 2)
    (heq : isAl '=' = false) :
    findAll isAl (r ++ List.replicate p '=') = [r ++ List.replicate p '='] := by
  unfold findAll
  rw [scanA_append_run isAl r [] (List.replicate p '=') hall]
  have h4 : 4 ≤ r.reverse.length := by simpa using hlen
  interval_cases p
  · rw [List.replicate, List.append_nil, scanA_nil, if_pos h4, List.reverse_reverse]
    simp
  · rw [show List.replicate 1 '=' = ['='] from rfl, List.append_nil,
      scanA_cons_pad isAl r.reverse [] h4 heq, scanA_nil_oneEq, List.reverse_reverse]
  · rw [show List.replicate 2 '=' = ['=', '='] from rfl, List.append_nil,
      scanA_cons_pad isAl r.reverse ['='] h4 heq, scanA_cons_oneEq_pad, List.reverse_reverse,
      scanA_nil]
    simp

/-- Every match the scanner emits is a run of at least four class characters
followed by at most two `=`. -/
theorem scanA_shape (isAl : Char → Bool) :
    ∀ (cs run : List Char) (oneEq : Bool), (∀ c ∈ run, isAl c = true) →
      (oneEq = true → 4 ≤ run.length) →
      ∀ m ∈ scanA isAl oneEq run cs,
        ∃ r p, m = r ++ List.replicate p '=' ∧ (∀ c ∈ r, isAl c = true) ∧
          4 ≤ r.length ∧ p ≤ 2 := by
  intro cs
  induction cs with
  | nil =>
    intro run oneEq hrun honeEq m hm
    cases oneEq with
    | true =>
      rw [scanA_nil_oneEq, List.mem_singleton] at hm
      refine ⟨run.reverse, 1, ?_, ?_, ?_, by omega⟩
      · simpa [List.replicate] using hm
      · intro c hc; exact hrun c (List.mem_reverse.mp hc)
      · rw [List.length_reverse]; exact honeEq rfl
    | false =>
      rw [scanA_nil] at hm
      by_cases h4 : 4 ≤ run.length
      · rw [if_pos h4, List.mem_singleton] at hm
        refine ⟨run.reverse, 0, by simpa using hm, ?_, by simpa using h4, by omega⟩
        intro c hc; exact hrun c (List.mem_reverse.mp hc)
      · rw [if_neg h4] at hm
        exact absurd hm (List.not_mem_nil m)
  | cons c cs ih =>
    intro run oneEq hrun honeEq m hm
    cases oneEq with
    | true =>
      by_cases hc : c = '='
      · subst hc
        rw [scanA_cons_oneEq_pad] at hm
        rcases List.mem_cons.mp hm with h | h
        · refine ⟨run.reverse, 2, ?_, ?_, ?_, by omega⟩
          · simpa [List.replicate] using h
          · intro x hx; exact hrun x (List.mem_reverse.mp hx)
          · rw [List.length_reverse]; exact honeEq rfl
        · exact ih [] false (by simp) (by simp) m h
      · by_cases hal : isAl c
        · rw [scanA_cons_oneEq_al isAl run c cs hc hal] at hm
          rcases List.mem_cons.mp hm with h | h
          · refine ⟨run.reverse, 1, ?_, ?_, ?_, by omega⟩
            · simpa [List.replicate] using h
            · intro x hx; exact hrun x (List.mem_reverse.mp hx)
            · rw [List.length_reverse]; exact honeEq rfl
          · refine ih [c] false ?_ (by simp) m h
            intro x hx
            rw [List.mem_singleton] at hx
            subst hx; exact hal
        · rw [scanA_cons_oneEq_other isAl run c cs hc (by simpa using hal)] at hm
          rcases List.mem_cons.mp hm with h | h
          · refine ⟨run.reverse, 1, ?_, ?_, ?_, by omega⟩
            · simpa [List.replicate] using h
            · intro x hx; exact hrun x (List.mem_reverse.mp hx)
            · rw [List.length_reverse]; exact honeEq rfl
          · exact ih [] false (by simp) (by simp) m h
    | false =>
      by_cases hal : isAl c
      · rw [scanA_cons_al isAl run c cs hal] at hm
        refine ih (c :: run) false ?_ (by simp) m hm
        intro x hx
        rcases List.mem_cons.mp hx with h | h
        · subst h; exact hal
        · exact hrun x h
      · by_cases h4 : 4 ≤ run.length
        · by_cases hc : c = '='
          · subst hc
            rw [scanA_cons_pad isAl run cs h4 (by simpa using hal)] at hm
            exact ih run true hrun (fun _ => h4) m hm
          · rw [scanA_cons_endrun isAl run c cs h4 (by simpa using hal) hc] at hm
            rcases List.mem_cons.mp hm with h | h
            · refine ⟨run.reverse, 0, by simpa using h, ?_, by simpa using h4, by omega⟩
              intro x hx; exact hrun x (List.mem_reverse.mp hx)
            · exact ih [] false (by simp) (by simp) m h
        · rw [scanA_cons_short isAl run c cs h4 (by simpa using hal)] at hm
          exact ih [] false (by simp) (by simp) m hm

/-! ## Lemmas about the filter-and-deduplicate pass -/

theorem addMatches_cons (cfg : Config) (acc : List (List Char)) (x : List Char)
    (ms : List (List Char)) :
    addMatches cfg acc (x :: ms) =
      addMatches cfg
        (if cfg.minLength ≤ x.length ∧ isValidBase64Length x = true then
          if x ∈ acc then acc else acc ++ [x]
        else acc) ms := rfl

/-- Anything already collected stays collected. -/
theorem mem_addMatches_mono (cfg : Config) :
    ∀ (ms acc : List (List Char)) (m : List Char), m ∈ acc → m ∈ addMatches cfg acc ms := by
  intro ms
  induction ms with
  | nil => intro acc m hm; exact hm
  | cons x ms ih =>
    intro acc m hm
    rw [addMatches_cons]
    apply ih
    split
    · split
      · exact hm
      · exact List.mem_append_left _ hm
    · exact hm

/-- Everything collected comes from the accumulator or is a filtered match. -/
theorem mem_addMatches (cfg : Config) :
    ∀ (ms acc : List (List Char)) (m : List Char), m ∈ addMatches cfg acc ms →
      m ∈ acc ∨ (m ∈ ms ∧ cfg.minLength ≤ m.length ∧ isValidBase64Length m = true) := by
  intro ms
  induction ms with
  | nil => intro acc m hm; exact Or.inl hm
  | cons x ms ih =>
    intro acc m hm
    rw [addMatches_cons] at hm
    rcases ih _ m hm with h | h
    · by_cases hc : cfg.minLength ≤ x.length ∧ isValidBase64Length x = true
      · rw [if_pos hc] at h
        by_cases hx : x ∈ acc
        · rw [if_pos hx] at h; exact Or.inl h
        · rw [if_neg hx] at h
          rcases List.mem_append.mp h with h2 | h2
          · exact Or.inl h2
          · rw [List.mem_singleton] at h2
            rw [h2]
            exact Or.inr ⟨List.mem_cons_self x ms, hc⟩
      · rw [if_neg hc] at h; exact Or.inl h
    · exact Or.inr ⟨List.mem_cons_of_mem x h.1, h.2⟩

/-- A filtered match is collected. -/
theorem mem_addMatches_self (cfg : Config) :
    ∀ (ms acc : List (List Char)) (m : List Char), m ∈ ms → cfg.minLength ≤ m.length →
      isValidBase64Length m = true → m ∈ addMatches cfg acc ms := by
  intro ms
  induction ms with
  | nil => intro acc m hm; exact absurd hm (List.not_mem_nil m)
  | cons x ms ih =>
    intro acc m hm hlen hval
    rw [addMatches_cons]
    rcases List.mem_cons.mp hm with h | h
    · subst h
      rw [if_pos ⟨hlen, hval⟩]
      by_cases hx : m ∈ acc
      · rw [if_pos hx]
        exact mem_addMatches_mono cfg ms acc m hx
      · rw [if_neg hx]
        exact mem_addMatches_mono cfg ms _ m (List.mem_append_right _ (List.mem_singleton.mpr rfl))
    · exact ih _ m h hlen hval

/-- Every candidate the finder emits is a run of at least four characters of
one of the two alphabets followed by at most two `=`, is at least
`minLength` long, and is length-valid. -/
theorem findBase64Patterns_shape (cfg : Config) (line m : List Char)
    (hm : m ∈ findBase64Patterns cfg line) :
    (∃ r p, m = r ++ List.replicate p '=' ∧
      ((∀ c ∈ r, isStdChar c = true) ∨ (∀ c ∈ r, isUrlChar c = true)) ∧
      4 ≤ r.length ∧ p ≤ 2) ∧
    cfg.minLength ≤ m.length ∧ isValidBase64Length m = true := by
  unfold findBase64Patterns at hm
  have hstd : m ∈ addMatches cfg [] (findAll isStdChar line) →
      (∃ r p, m = r ++ List.replicate p '=' ∧
        ((∀ c ∈ r, isStdChar c = true) ∨ (∀ c ∈ r, isUrlChar c = true)) ∧
        4 ≤ r.length ∧ p ≤ 2) ∧
      cfg.minLength ≤ m.length ∧ isValidBase64Length m = true := by
    intro h
    rcases mem_addMatches cfg _ _ m h with h2 | h2
    · exact absurd h2 (List.not_mem_nil m)
    · rcases scanA_shape isStdChar line [] false (by simp) (by simp) m h2.1 with
        ⟨r, p, hrp, hral, hrlen, hple⟩
      exact ⟨⟨r, p, hrp, Or.inl hral, hrlen, hple⟩, h2.2⟩
  by_cases hu : cfg.urlSafe
  · rw [if_pos hu] at hm
    rcases mem_addMatches cfg _ _ m hm with h | h
    · exact hstd h
    · rcases scanA_shape isUrlChar line [] false (by simp) (by simp) m h.1 with
        ⟨r, p, hrp, hral, hrlen, hple⟩
      exact ⟨⟨r, p, hrp, Or.inr hral, hrlen, hple⟩, h.2⟩
  · rw [if_neg hu] at hm
    exact hstd hm

/-! ## Lemmas about padding stripping, and claims C6 and C7 -/

theorem trimTrailingEq_length (s : List Char) :
    (trimTrailingEq s).length = strippedLenSpec s := by
  unfold trimTrailingEq strippedLenSpec trailingEqCount
  rw [List.length_reverse]
  have h := congrArg List.length
    (List.takeWhile_append_dropWhile (p := fun c => c == '=') (l := s.reverse))
  rw [List.length_append, List.length_reverse] at h
  omega

theorem trimTrailingEq_append_replicate (r : List Char) (p : Nat)
    (h : ∀ c ∈ r, (c == '=') = false) :
    trimTrailingEq (r ++ List.replicate p '=') = r := by
  unfold trimTrailingEq
  rw [List.reverse_append, List.reverse_replicate]
  have hdrop : ∀ q : Nat,
      (List.replicate q '=' ++ r.reverse).dropWhile (fun c => c == '=') =
        r.reverse.dropWhile (fun c => c == '=') := by
    intro q
    induction q with
    | zero => simp
    | succ q ih => simp [List.replicate, ih]
  rw [hdrop]
  have hself : r.reverse.dropWhile (fun c => c == '=') = r.reverse := by
    cases hr : r.reverse with
    | nil => simp
    | cons a t =>
      have ha : (a == '=') = false := by
        refine h a ?_
        rw [← List.mem_reverse, hr]
        exact List.mem_cons_self a t
      simp [List.dropWhile, ha]
  rw [hself, List.reverse_reverse]

/-- C6: the length validator accepts a candidate exactly when its length
after stripping trailing `=` is 0, 2 or 3 modulo 4, and every candidate the
finder emits (hence everything handed to the decoder) passes it. -/
theorem c6_length_validation :
    (∀ s : List Char, isValidBase64Length s =
      decide (strippedLenSpec s % 4 = 0 ∨ strippedLenSpec s % 4 = 2 ∨
        strippedLenSpec s % 4 = 3)) ∧
    (∀ (cfg : Config) (line m : List Char), m ∈ findBase64Patterns cfg line →
      isValidBase64Length m = true) := by
  constructor
  · intro s
    rw [isValidBase64Length, trimTrailingEq_length]
  · intro cfg line m hm
    exact (findBase64Patterns_shape cfg line m hm).2.2

/-- C6 witness: the length validator evaluated on a candidate the finder
emits on the line of claim C2. -/
theorem c6_length_validation_witness : isValidBase64Length ("user=".toList) = true :=
  c6_length_validation.2 defaultConfig c2Line ("user=".toList) (by decide)

/-- C7: every full pattern match — a run of at least 4 standard-alphabet
characters followed by at most 2 `=` — whose stripped length is not 1 mod 4
and whose length reaches `minLength` is emitted by the finder when it is fed
a line containing it. -/
theorem c7_finder_emits (cfg : Config) (r : List Char) (p : Nat)
    (hall : ∀ c ∈ r, isStdChar c = true) (hlen : 4 ≤ r.length) (hp : p ≤ 2)
    (hmod : r.length % 4 ≠ 1) (hmin : cfg.minLength ≤ r.length + p) :
    (r ++ List.replicate p '=') ∈ findBase64Patterns cfg (r ++ List.replicate p '=') := by
  have heq : isStdChar '=' = false := by decide
  have hne : ∀ c ∈ r, (c == '=') = false := by
    intro c hc
    have hstd := hall c hc
    by_cases h : c = '='
    · subst h
      rw [heq] at hstd
      simp at hstd
    · exact beq_eq_false_iff_ne.mpr h
  have hscan := scan_full isStdChar r p hall hlen hp heq
  have hlen2 : (r ++ List.replicate p '=').length = r.length + p := by
    rw [List.length_append, List.length_replicate]
  have hval : isValidBase64Length (r ++ List.replicate p '=') = true := by
    rw [isValidBase64Length, trimTrailingEq_append_replicate r p hne]
    have hmod3 : r.length % 4 = 0 ∨ r.length % 4 = 2 ∨ r.length % 4 = 3 := by omega
    exact decide_eq_true hmod3
  have hs : (r ++ List.replicate p '=') ∈
      addMatches cfg [] (findAll isStdChar (r ++ List.replicate p '=')) := by
    rw [hscan]
    refine mem_addMatches_self cfg _ [] _ (List.mem_singleton.mpr rfl) ?_ hval
    rw [hlen2]
    exact hmin
  simp only [findBase64Patterns]
  by_cases hu : cfg.urlSafe
  · rw [if_pos hu]
    exact mem_addMatches_mono cfg _ _ _ hs
  · rw [if_neg hu]
    exact hs

/-- C7 witness: the padded match `aGVsbG8=` is emitted when the line is that
match itself. -/
theorem c7_finder_emits_witness :
    ("aGVsbG8".toList ++ List.replicate 1 '=') ∈
      findBase64Patterns defaultConfig ("aGVsbG8".toList ++ List.replicate 1 '=') :=
  c7_finder_emits defaultConfig ("aGVsbG8".toList) 1 (by decide) (by decide) (by decide)
    (by decide) (by decide)

/-! ## Nonemptiness of successful decodes, and claim C10 -/

theorem firstSuccess_mem :
    ∀ (l : List (Option (List Nat))) (bs : List Nat), firstSuccess l = some bs →
      some bs ∈ l := by
  intro l
  induction l with
  | nil => intro bs h; cases h
  | cons v l ih =>
    intro bs h
    match v with
    | some d =>
      rw [firstSuccess] at h
      rw [h]
      exact List.mem_cons_self _ _
    | none =>
      rw [firstSuccess] at h
      exact List.mem_cons_of_mem _ (ih bs h)

theorem mem_decodeVariants (cfg : Config) (s : List Char) (v : Option (List Nat))
    (h : v ∈ decodeVariants cfg s) :
    ∃ dmap padded, v = goDecode dmap padded s := by
  unfold decodeVariants at h
  by_cases hu : cfg.urlSafe
  · rw [if_pos hu] at h
    simp only [List.cons_append, List.nil_append, List.mem_cons, List.not_mem_nil,
      or_false] at h
    rcases h with h | h | h | h <;> exact ⟨_, _, h⟩
  · rw [if_neg hu] at h
    simp only [List.cons_append, List.nil_append, List.mem_cons, List.not_mem_nil,
      or_false] at h
    rcases h with h | h <;> exact ⟨_, _, h⟩

theorem decodePadded_ne_nil (dmap : Char → Option Nat) :
    ∀ (t : List Char) (bs : List Nat), t ≠ [] → decodePadded dmap t = some bs → bs ≠ [] := by
  intro t bs hne h
  match t with
  | [] => exact absurd rfl hne
  | [a] => simp [decodePadded] at h
  | [a, b] => simp [decodePadded] at h
  | [a, b, c] => simp [decodePadded] at h
  | a :: b :: c :: d :: rest =>
    rw [decodePadded] at h
    split at h
    · split at h
      · split at h
        · obtain rfl := Option.some.inj h
          simp
        · cases h
      · split at h
        · split at h
          · split at h
            · obtain rfl := Option.some.inj h
              simp
            · cases h
          · split at h
            · rcases Option.map_eq_some'.mp h with ⟨u, _, hf⟩
              rw [← hf]
              simp
            · cases h
        · cases h
    · cases h

theorem decodeRaw_ne_nil (dmap : Char → Option Nat) :
    ∀ (t : List Char) (bs : List Nat), t ≠ [] → decodeRaw dmap t = some bs → bs ≠ [] := by
  intro t bs hne h
  match t with
  | [] => exact absurd rfl hne
  | [a] => simp [decodeRaw] at h
  | [a, b] =>
    rw [decodeRaw] at h
    split at h
    · obtain rfl := Option.some.inj h
      simp
    · cases h
  | [a, b, c] =>
    rw [decodeRaw] at h
    split at h
    · obtain rfl := Option.some.inj h
      simp
    · cases h
  | a :: b :: c :: d :: rest =>
    rw [decodeRaw] at h
    split at h
    · rcases Option.map_eq_some'.mp h with ⟨u, _, hf⟩
      rw [← hf]
      simp
    · cases h

theorem filter_crlf_eq_self (m : List Char) (h : ∀ c ∈ m, c ≠ '\r' ∧ c ≠ '\n') :
    (m.filter fun c => !(c == '\r' || c == '\n')) = m := by
  rw [List.filter_eq_self]
  intro c hc
  rcases h c hc with ⟨h1, h2⟩
  simp [h1, h2]

theorem shape_no_crlf (r : List Char) (p : Nat) (isAl : Char → Bool)
    (hal : ∀ c ∈ r, isAl c = true) (hcr : isAl '\r' = false) (hlf : isAl '\n' = false) :
    ∀ c ∈ r ++ List.replicate p '=', c ≠ '\r' ∧ c ≠ '\n' := by
  intro c hc
  rcases List.mem_append.mp hc with h | h
  · have hc2 := hal c h
    constructor <;> intro he <;> subst he
    · rw [hcr] at hc2; simp at hc2
    · rw [hlf] at hc2; simp at hc2
  · rcases List.eq_of_mem_replicate h with rfl
    exact ⟨by decide, by decide⟩

/-- C10: every candidate the finder emits contains at least 4 alphabet
characters, and whenever the decoder succeeds on a candidate the decoded
byte sequence is nonempty — so the empty-sequence branch of the output
filter is never taken on pipeline data and its ratio denominator is
positive. -/
theorem c10_nonempty_decode (cfg : Config) (line m : List Char) (bs : List Nat)
    (hm : m ∈ findBase64Patterns cfg line) (hd : decodeBase64 cfg m = some bs) :
    4 ≤ m.countP (fun c => isStdChar c || isUrlChar c) ∧ bs ≠ [] ∧ 0 < bs.length := by
  obtain ⟨⟨r, p, rfl, hral, hrlen, hple⟩, hmin, hval⟩ := findBase64Patterns_shape cfg line m hm
  have hcount : 4 ≤ (r ++ List.replicate p '=').countP (fun c => isStdChar c || isUrlChar c) := by
    rw [List.countP_append]
    have hful : r.countP (fun c => isStdChar c || isUrlChar c) = r.length := by
      rw [List.countP_eq_length]
      intro c hc
      rcases hral with h | h
      · simp [h c hc]
      · simp [h c hc]
    omega
  have hno : ∀ c ∈ r ++ List.replicate p '=', c ≠ '\r' ∧ c ≠ '\n' := by
    rcases hral with h | h
    · exact shape_no_crlf r p isStdChar h (by decide) (by decide)
    · exact shape_no_crlf r p isUrlChar h (by decide) (by decide)
  have hne : (r ++ List.replicate p '=') ≠ [] := by
    have hr : r ≠ [] := by
      intro h0
      rw [h0] at hrlen
      simp at hrlen
    exact fun h0 => hr (List.append_eq_nil.mp h0).1
  have hfs : firstSuccess (decodeVariants cfg (r ++ List.replicate p '=')) = some bs := by
    rw [← (decodeBase64_variants cfg _).1]
    exact hd
  obtain ⟨dmap, padded, hgo⟩ :=
    mem_decodeVariants cfg _ _ (firstSuccess_mem _ bs hfs)
  rw [goDecode, filter_crlf_eq_self _ hno] at hgo
  have hbs : bs ≠ [] := by
    cases padded
    · rw [if_neg (by simp)] at hgo
      exact decodeRaw_ne_nil dmap _ bs hne hgo.symm
    · rw [if_pos rfl] at hgo
      exact decodePadded_ne_nil dmap _ bs hne hgo.symm
  exact ⟨hcount, hbs, List.length_pos.mpr hbs⟩

/-! ## Lemmas about the run loop -/

theorem stepMatch_totalFound (cfg : Config) (ln : Nat) (st : RunState) (m : List Char) :
    (stepMatch cfg ln st m).totalFound = st.totalFound + 1 := by
  simp only [stepMatch]
  split <;> split <;> rfl

theorem hasStats_append_decodeErr (l : List Diag) (ln : Nat) (m : List Char) :
    hasStats (l ++ [Diag.decodeErr ln m]) = hasStats l := by
  simp [hasStats]

theorem hasStats_append_warning (l : List Diag) :
    hasStats (l ++ [Diag.limitWarning]) = hasStats l := by
  simp [hasStats]

theorem hasStats_stepMatch (cfg : Config) (ln : Nat) (st : RunState) (m : List Char) :
    hasStats (stepMatch cfg ln st m).stderr = hasStats st.stderr := by
  simp only [stepMatch]
  split
  · split
    · exact hasStats_append_decodeErr st.stderr ln (truncate m 20)
    · rfl
  · split <;> rfl

theorem runMatches_spec (cfg : Config) (ln : Nat) :
    ∀ (ms : List (List Char)) (st : RunState), st.totalFound ≤ maxMatches →
      ((runMatches cfg ln st ms).1.totalFound = min (st.totalFound + ms.length) maxMatches) ∧
      ((runMatches cfg ln st ms).2 = true ↔ maxMatches < st.totalFound + ms.length) := by
  intro ms
  induction ms with
  | nil =>
    intro st h
    constructor
    · simp only [runMatches, List.length_nil, Nat.add_zero]
      omega
    · simp only [runMatches, List.length_nil, Nat.add_zero]
      simp
      omega
  | cons m ms ih =>
    intro st h
    by_cases hcap : maxMatches ≤ st.totalFound
    · simp only [runMatches]
      rw [if_pos hcap]
      constructor
      · split <;> simp <;> omega
      · simp [List.length_cons]
        omega
    · simp only [runMatches]
      rw [if_neg hcap]
      have h1 := stepMatch_totalFound cfg ln st m
      obtain ⟨ih1, ih2⟩ := ih (stepMatch cfg ln st m) (by omega)
      constructor
      · rw [ih1, h1, List.length_cons]
        omega
      · rw [ih2, h1, List.length_cons]
        omega

theorem hasStats_runMatches (cfg : Config) (ln : Nat) :
    ∀ (ms : List (List Char)) (st : RunState),
      hasStats (runMatches cfg ln st ms).1.stderr = hasStats st.stderr := by
  intro ms
  induction ms with
  | nil => intro st; rfl
  | cons m ms ih =>
    intro st
    simp only [runMatches]
    split
    · split
      · exact hasStats_append_warning st.stderr
      · rfl
    · rw [ih]
      exact hasStats_stepMatch cfg ln st m

theorem candCount_cons (cfg : Config) (l : List Char) (ls : List (List Char)) :
    candCount cfg (l :: ls) = (findBase64Patterns cfg l).length + candCount cfg ls := by
  simp [candCount]

theorem runLines_spec (cfg : Config) :
    ∀ (ls : List (List Char)) (ln : Nat) (st : RunState), st.totalFound ≤ maxMatches →
      ((runLines cfg ln st ls).1.totalFound = min (st.totalFound + candCount cfg ls) maxMatches) ∧
      ((runLines cfg ln st ls).2 = true ↔ maxMatches < st.totalFound + candCount cfg ls) := by
  intro ls
  induction ls with
  | nil =>
    intro ln st h
    constructor
    · simp only [runLines]
      simp [candCount]
      omega
    · simp only [runLines]
      simp [candCount]
      omega
  | cons l ls ih =>
    intro ln st h
    obtain ⟨hm1, hm2⟩ := runMatches_spec cfg (ln + 1) (findBase64Patterns cfg l) st h
    simp only [runLines]
    by_cases he : (runMatches cfg (ln + 1) st (findBase64Patterns cfg l)).2
    · rw [if_pos he]
      have hlt : maxMatches < st.totalFound + (findBase64Patterns cfg l).length := hm2.mp he
      constructor
      · rw [hm1, candCount_cons]
        omega
      · rw [candCount_cons]
        simp [he]
        omega
    · rw [if_neg he]
      have hle : st.totalFound + (findBase64Patterns cfg l).length ≤ maxMatches := by
        by_contra hx
        exact he (hm2.mpr (by omega))
      have h1 : (runMatches cfg (ln + 1) st (findBase64Patterns cfg l)).1.totalFound =
          st.totalFound + (findBase64Patterns cfg l).length := by
        rw [hm1]
        omega
      obtain ⟨ia, ib⟩ := ih (ln + 1) (runMatches cfg (ln + 1) st (findBase64Patterns cfg l)).1
        (by rw [h1]; omega)
      constructor
      · rw [ia, h1, candCount_cons]
        omega
      · rw [ib, h1, candCount_cons]
        omega

theorem hasStats_runLines (cfg : Config) :
    ∀ (ls : List (List Char)) (ln : Nat) (st : RunState),
      hasStats (runLines cfg ln st ls).1.stderr = hasStats st.stderr := by
  intro ls
  induction ls with
  | nil => intro ln st; rfl
  | cons l ls ih =>
    intro ln st
    simp only [runLines]
    split
    · exact hasStats_runMatches cfg (ln + 1) (findBase64Patterns cfg l) st
    · rw [ih]
      exact hasStats_runMatches cfg (ln + 1) (findBase64Patterns cfg l) st

/-- Scanning stops at the line on which the cap triggers: when the lines
already seen push the candidate total past the cap, any suffix of further
input leaves the run of the scan loop unchanged. -/
theorem runLines_frozen (cfg : Config) :
    ∀ (ls suffix : List (List Char)) (ln : Nat) (st : RunState),
      st.totalFound ≤ maxMatches → maxMatches < st.totalFound + candCount cfg ls →
      runLines cfg ln st (ls ++ suffix) = runLines cfg ln st ls := by
  intro ls
  induction ls with
  | nil =>
    intro suffix ln st h hx
    simp [candCount] at hx
    exact absurd hx (by omega)
  | cons l ls ih =>
    intro suffix ln st h hx
    simp only [List.cons_append, runLines]
    by_cases he : (runMatches cfg (ln + 1) st (findBase64Patterns cfg l)).2
    · rw [if_pos he, if_pos he]
    · rw [if_neg he, if_neg he]
      obtain ⟨hm1, hm2⟩ := runMatches_spec cfg (ln + 1) (findBase64Patterns cfg l) st h
      have hle : st.totalFound + (findBase64Patterns cfg l).length ≤ maxMatches := by
        by_contra hxx
        exact he (hm2.mpr (by omega))
      have h1 : (runMatches cfg (ln + 1) st (findBase64Patterns cfg l)).1.totalFound =
          st.totalFound + (findBase64Patterns cfg l).length := by
        rw [hm1]
        omega
      rw [candCount_cons] at hx
      exact ih suffix (ln + 1) _ (by rw [h1]; omega) (by rw [h1]; omega)

/-- C4: once the input holds more than 10000 candidates, exactly 10000 are
counted and decode-attempted, the run returns early, and any further input
beyond the triggering prefix is never scanned (appending it changes
nothing). -/
theorem c4_match_cap (cfg : Config) (ls : List (List Char))
    (h : maxMatches < candCount cfg ls) :
    (findAndDecode cfg ls).1.totalFound = maxMatches ∧ (findAndDecode cfg ls).2 = true ∧
      ∀ suffix, findAndDecode cfg (ls ++ suffix) = findAndDecode cfg ls := by
  have h0 : initState.totalFound ≤ maxMatches := by
    simp [initState]
  obtain ⟨hs1, hs2⟩ := runLines_spec cfg ls 0 initState h0
  have he : (runLines cfg 0 initState ls).2 = true := by
    rw [hs2]
    simp [initState]
    omega
  have htf : (runLines cfg 0 initState ls).1.totalFound = maxMatches := by
    rw [hs1]
    simp [initState]
    omega
  refine ⟨?_, ?_, ?_⟩
  · simp only [findAndDecode, he, if_true]
    exact htf
  · simp only [findAndDecode, he, if_true]
  · intro suffix
    have hfr := runLines_frozen cfg ls suffix 0 initState h0 (by simp [initState]; omega)
    simp only [findAndDecode, hfr]

/-- C4 witness: 10001 lines of the candidate `AAAA` run into the cap. -/
theorem c4_match_cap_witness :
    maxMatches < candCount defaultConfig (List.replicate 10001 lineAAAA) ∧
      (findAndDecode defaultConfig (List.replicate 10001 lineAAAA)).1.totalFound = maxMatches := by
  have hone : (findBase64Patterns defaultConfig lineAAAA).length = 1 := by decide
  have hcc : candCount defaultConfig (List.replicate 10001 lineAAAA) = 10001 := by
    unfold candCount
    rw [List.map_replicate, hone, List.sum_replicate]
    simp
  have hlt : maxMatches < candCount defaultConfig (List.replicate 10001 lineAAAA) := by
    rw [hcc, maxMatches]
    omega
  exact ⟨hlt, (c4_match_cap defaultConfig _ hlt).1⟩

/-- C5 (amended): in verbose mode the statistics summary is printed exactly
on the normal-completion path; a run that ends early on the match cap prints
the limit warning but no summary. -/
theorem c5_stats_on_completion (cfg : Config) (ls : List (List Char))
    (hv : cfg.verbose = true) :
    ((findAndDecode cfg ls).2 = false → hasStats (findAndDecode cfg ls).1.stderr = true) ∧
    ((findAndDecode cfg ls).2 = true → hasStats (findAndDecode cfg ls).1.stderr = false) := by
  have hrl : hasStats (runLines cfg 0 initState ls).1.stderr = false := by
    rw [hasStats_runLines]
    rfl
  simp only [findAndDecode]
  by_cases he : (runLines cfg 0 initState ls).2
  · rw [if_pos he]
    constructor
    · intro hfalse
      rw [hfalse] at he
      cases he
    · intro _
      exact hrl
  · rw [if_neg he, if_pos hv]
    constructor
    · intro _
      simp [hasStats]
    · intro htrue
      cases htrue

/-- C5 witness: a verbose run that completes normally has the summary on its
diagnostic stream. -/
theorem c5_stats_on_completion_witness :
    verboseConfig.verbose = true ∧
      hasStats (findAndDecode verboseConfig ["aGVsbG8=".toList]).1.stderr = true :=
  ⟨rfl, (c5_stats_on_completion verboseConfig ["aGVsbG8=".toList] rfl).1 (by decide)⟩

/-- One step of the scan loop on a line whose single candidate is `AAAA`:
the candidate decodes to three zero bytes, which the filter silently
rejects, so only the found counter moves. -/
theorem runLines_replicate_AAAA (n : Nat) :
    ∀ (ln f d : Nat) (out : List (List Nat)) (err : List Diag), f + n ≤ maxMatches →
      runLines verboseConfig ln ⟨f, d, out, err⟩ (List.replicate n lineAAAA) =
        (⟨f + n, d, out, err⟩, false) := by
  induction n with
  | zero =>
    intro ln f d out err h
    simp [runLines]
  | succ n ih =>
    intro ln f d out err h
    rw [show List.replicate (n + 1) lineAAAA = lineAAAA :: List.replicate n lineAAAA from rfl]
    simp only [runLines]
    have hfind : findBase64Patterns verboseConfig lineAAAA = [lineAAAA] := by decide
    rw [hfind]
    have hcap : ¬ maxMatches ≤ f := by
      rw [maxMatches] at h ⊢
      omega
    have hstep : stepMatch verboseConfig (ln + 1) ⟨f, d, out, err⟩ lineAAAA =
        ⟨f + 1, d, out, err⟩ := by
      have hdec : decodeBase64 verboseConfig lineAAAA = some [0, 0, 0] := by decide
      have hval : isValidOutput [0, 0, 0] = false := by decide
      simp [stepMatch, hdec, hval]
    rw [show runMatches verboseConfig (ln + 1) ⟨f, d, out, err⟩ [lineAAAA] =
        (if maxMatches ≤ f then
          (if verboseConfig.verbose then
            ⟨f, d, out, err ++ [Diag.limitWarning]⟩ else ⟨f, d, out, err⟩, true)
        else runMatches verboseConfig (ln + 1)
          (stepMatch verboseConfig (ln + 1) ⟨f, d, out, err⟩ lineAAAA) []) from rfl]
    rw [if_neg hcap, hstep]
    rw [show runMatches verboseConfig (ln + 1) (⟨f + 1, d, out, err⟩ : RunState) [] =
        ((⟨f + 1, d, out, err⟩ : RunState), false) from rfl]
    simp only
    rw [ih (ln + 1) (f + 1) d out err (by omega)]
    have harith : f + 1 + n = f + (n + 1) := by omega
    rw [harith]
    simp

/-- Decomposition of the scan loop over appended input. -/
theorem runLines_append (cfg : Config) :
    ∀ (as bs : List (List Char)) (ln : Nat) (st : RunState),
      runLines cfg ln st (as ++ bs) =
        if (runLines cfg ln st as).2 then runLines cfg ln st as
        else runLines cfg (ln + as.length) (runLines cfg ln st as).1 bs := by
  intro as
  induction as with
  | nil =>
    intro bs ln st
    simp [runLines]
  | cons a as ih =>
    intro bs ln st
    simp only [List.cons_append, runLines]
    by_cases he : (runMatches cfg (ln + 1) st (findBase64Patterns cfg a)).2
    · simp only [if_pos he]
    · simp only [if_neg he]
      simp only [List.append_eq]
      rw [ih bs (ln + 1) (runMatches cfg (ln + 1) st (findBase64Patterns cfg a)).1]
      rw [List.length_cons]
      have hl : ln + 1 + as.length = ln + (as.length + 1) := by omega
      rw [hl]

/-- C5 counterexample: a verbose run over 10001 single-candidate lines hits
the cap; its diagnostic stream ends up holding exactly the limit warning and
no statistics summary — the claim promised the summary on this path too. -/
theorem c5_counterexample :
    (findAndDecode verboseConfig (List.replicate 10001 lineAAAA)).2 = true ∧
      (findAndDecode verboseConfig (List.replicate 10001 lineAAAA)).1.stderr =
        [Diag.limitWarning] := by
  have hsplit : List.replicate 10001 lineAAAA =
      List.replicate 10000 lineAAAA ++ [lineAAAA] := by
    rw [show (10001 : Nat) = 10000 + 1 from rfl, List.replicate_add]
    rfl
  have h1 := runLines_replicate_AAAA 10000 0 0 0 [] [] (by rw [maxMatches])
  have h2 : runLines verboseConfig 0 initState (List.replicate 10001 lineAAAA) =
      (⟨10000, 0, [], [Diag.limitWarning]⟩, true) := by
    rw [hsplit, runLines_append]
    rw [show initState = (⟨0, 0, [], []⟩ : RunState) from rfl, h1]
    simp only [Bool.false_eq_true, if_false]
    simp only [runLines]
    have hfind : findBase64Patterns verboseConfig lineAAAA = [lineAAAA] := by decide
    rw [hfind]
    rfl
  constructor
  · simp only [findAndDecode, h2]
    rfl
  · simp only [findAndDecode, h2]
    rfl

/-- C9: the pipeline is a pure function of configuration and input — equal
inputs under the same configuration produce identical run results, byte for
byte.  (The only associative container of the Go code, the per-line `seen`
map, is used for membership tests only and never iterated, so no map
iteration order can leak into the output.) -/
theorem c9_deterministic (cfg : Config) (ls1 ls2 : List (List Char)) (h : ls1 = ls2) :
    findAndDecode cfg ls1 = findAndDecode cfg ls2 := by
  rw [h]

/-- C9 witness: the run of claim C2 compared with itself. -/
theorem c9_deterministic_witness :
    ([c2Line] = [c2Line]) ∧
      findAndDecode defaultConfig [c2Line] = findAndDecode defaultConfig [c2Line] :=
  ⟨rfl, c9_deterministic defaultConfig [c2Line] [c2Line] rfl⟩

/-- C10 witness: the candidate `aGVsbG8=` of the C2 line decodes to the five
bytes of `hello`. -/
theorem c10_nonempty_decode_witness :
    4 ≤ ("aGVsbG8=".toList).countP (fun c => isStdChar c || isUrlChar c) ∧
      asciiBytes "hello" ≠ [] ∧ 0 < (asciiBytes "hello").length :=
  c10_nonempty_decode defaultConfig ("aGVsbG8=".toList) ("aGVsbG8=".toList)
    (asciiBytes "hello") (by decide) (by decide)

/-! ## Round-trip lemmas and claim C8 -/

theorem stdDmap_encChar : ∀ n < 64, stdDmap (encChar n) = some n := by decide

theorem encChar_std : ∀ n < 64, isStdChar (encChar n) = true := by decide

theorem encChar_ne_pad (n : Nat) (h : n < 64) : encChar n ≠ '=' := by
  intro he
  have hmap := stdDmap_encChar n h
  rw [he] at hmap
  rw [show stdDmap '=' = none from rfl] at hmap
  cases hmap

/-- The standard padded encoding of a byte sequence is a run of standard
alphabet characters followed by at most two `=`; the run length is never
1 mod 4, and it reaches 4 as soon as the input holds at least 3 bytes. -/
theorem b64encode_shape : ∀ (s : List Nat), (∀ b ∈ s, b < 256) →
    ∃ r p, b64encode s = r ++ List.replicate p '=' ∧ (∀ c ∈ r, isStdChar c = true) ∧
      p ≤ 2 ∧ r.length % 4 ≠ 1 ∧ (3 ≤ s.length → 4 ≤ r.length)
  | [], _ => ⟨[], 0, by simp [b64encode], by simp, by omega, by simp, by simp⟩
  | [b1], h => by
    have hb1 : b1 < 256 := h b1 (by simp)
    refine ⟨[encChar (b1 / 4), encChar (b1 % 4 * 16)], 2, ?_, ?_, by omega, by simp, by simp⟩
    · simp [b64encode, List.replicate]
    · intro c hc
      simp only [List.mem_cons, List.not_mem_nil, or_false] at hc
      rcases hc with rfl | rfl
      · exact encChar_std _ (by omega)
      · exact encChar_std _ (by omega)
  | [b1, b2], h => by
    have hb1 : b1 < 256 := h b1 (by simp)
    have hb2 : b2 < 256 := h b2 (by simp)
    refine ⟨[encChar (b1 / 4), encChar (b1 % 4 * 16 + b2 / 16), encChar (b2 % 16 * 4)], 1,
      ?_, ?_, by omega, by simp, by simp⟩
    · simp [b64encode, List.replicate]
    · intro c hc
      simp only [List.mem_cons, List.not_mem_nil, or_false] at hc
      rcases hc with rfl | rfl | rfl
      · exact encChar_std _ (by omega)
      · exact encChar_std _ (by omega)
      · exact encChar_std _ (by omega)
  | b1 :: b2 :: b3 :: t, h => by
    have hb1 : b1 < 256 := h b1 (by simp)
    have hb2 : b2 < 256 := h b2 (by simp)
    have hb3 : b3 < 256 := h b3 (by simp)
    have ht : ∀ b ∈ t, b < 256 := fun b hb => h b (by simp [hb])
    obtain ⟨r, p, henc, hall, hp, hmod, _⟩ := b64encode_shape t ht
    refine ⟨encChar (b1 / 4) :: encChar (b1 % 4 * 16 + b2 / 16) ::
      encChar (b2 % 16 * 4 + b3 / 64) :: encChar (b3 % 64) :: r, p, ?_, ?_, hp, ?_, ?_⟩
    · rw [show b64encode (b1 :: b2 :: b3 :: t) =
        encChar (b1 / 4) :: encChar (b1 % 4 * 16 + b2 / 16) ::
          encChar (b2 % 16 * 4 + b3 / 64) :: encChar (b3 % 64) :: b64encode t from rfl]
      rw [henc]
      simp
    · intro c hc
      simp only [List.mem_cons] at hc
      rcases hc with rfl | rfl | rfl | rfl | hc
      · exact encChar_std _ (by omega)
      · exact encChar_std _ (by omega)
      · exact encChar_std _ (by omega)
      · exact encChar_std _ (by omega)
      · exact hall c hc
    · simp only [List.length_cons]
      omega
    · intro _
      simp only [List.length_cons]
      omega

/-- Decoding a standard padded encoding recovers the bytes. -/
theorem decodePadded_encode : ∀ (s : List Nat), (∀ b ∈ s, b < 256) →
    decodePadded stdDmap (b64encode s) = some s
  | [], _ => rfl
  | [b1], h => by
    have hb1 : b1 < 256 := h b1 (by simp)
    have h1 := stdDmap_encChar (b1 / 4) (by omega)
    have h2 := stdDmap_encChar (b1 % 4 * 16) (by omega)
    simp [b64encode, decodePadded, h1, h2, q1]
    omega
  | [b1, b2], h => by
    have hb1 : b1 < 256 := h b1 (by simp)
    have hb2 : b2 < 256 := h b2 (by simp)
    have h1 := stdDmap_encChar (b1 / 4) (by omega)
    have h2 := stdDmap_encChar (b1 % 4 * 16 + b2 / 16) (by omega)
    have h3 := stdDmap_encChar (b2 % 16 * 4) (by omega)
    have hne3 : encChar (b2 % 16 * 4) ≠ '=' := encChar_ne_pad _ (by omega)
    simp [b64encode, decodePadded, h1, h2, h3, hne3, q1, q2]
    omega
  | b1 :: b2 :: b3 :: t, h => by
    have hb1 : b1 < 256 := h b1 (by simp)
    have hb2 : b2 < 256 := h b2 (by simp)
    have hb3 : b3 < 256 := h b3 (by simp)
    have ht : ∀ b ∈ t, b < 256 := fun b hb => h b (by simp [hb])
    have hIH := decodePadded_encode t ht
    have h1 := stdDmap_encChar (b1 / 4) (by omega)
    have h2 := stdDmap_encChar (b1 % 4 * 16 + b2 / 16) (by omega)
    have h3 := stdDmap_encChar (b2 % 16 * 4 + b3 / 64) (by omega)
    have h4 := stdDmap_encChar (b3 % 64) (by omega)
    have hne3 : encChar (b2 % 16 * 4 + b3 / 64) ≠ '=' := encChar_ne_pad _ (by omega)
    have hne4 : encChar (b3 % 64) ≠ '=' := encChar_ne_pad _ (by omega)
    rw [show b64encode (b1 :: b2 :: b3 :: t) =
      encChar (b1 / 4) :: encChar (b1 % 4 * 16 + b2 / 16) ::
        encChar (b2 % 16 * 4 + b3 / 64) :: encChar (b3 % 64) :: b64encode t from rfl]
    simp [decodePadded, h1, h2, h3, h4, hne3, hne4, hIH, q1, q2, q3]
    omega

theorem goDecode_encode (s : List Nat) (h : ∀ b ∈ s, b < 256) :
    goDecode stdDmap true (b64encode s) = some s := by
  obtain ⟨r, p, henc, hall, _, _, _⟩ := b64encode_shape s h
  have hno : ∀ c ∈ b64encode s, c ≠ '\r' ∧ c ≠ '\n' := by
    rw [henc]
    exact shape_no_crlf r p isStdChar hall (by decide) (by decide)
  have hgd : goDecode stdDmap true (b64encode s) =
      decodePadded stdDmap ((b64encode s).filter fun c => !(c == '\r' || c == '\n')) := rfl
  rw [hgd, filter_crlf_eq_self _ hno]
  exact decodePadded_encode s h

theorem utf8RunesF_ascii : ∀ (bs : List Nat), (∀ b ∈ bs, b < 128) →
    utf8RunesF bs.length bs = bs
  | [], _ => rfl
  | b :: t, h => by
    have hb : b < 128 := h b (by simp)
    have ht : ∀ x ∈ t, x < 128 := fun x hx => h x (by simp [hx])
    show utf8RunesF (t.length + 1) (b :: t) = b :: t
    simp only [utf8RunesF]
    rw [if_pos hb, utf8RunesF_ascii t ht]

theorem utf8Runes_ascii (bs : List Nat) (h : ∀ b ∈ bs, b < 128) : utf8Runes bs = bs :=
  utf8RunesF_ascii bs h

theorem countPrintable_ascii : ∀ (s : List Nat), (∀ b ∈ s, 32 ≤ b ∧ b ≤ 126) →
    countPrintable s = some s.length
  | [], _ => rfl
  | b :: t, h => by
    have hb := h b (by simp)
    have ht : ∀ x ∈ t, 32 ≤ x ∧ x ≤ 126 := fun x hx => h x (by simp [hx])
    have hp : goIsPrint b = true := by
      rw [goIsPrint, if_pos (by omega : b < 256)]
      exact decide_eq_true (Or.inl ⟨hb.1, hb.2⟩)
    have hacc : accChar b = true := by
      simp [accChar, hp]
    rw [countPrintable, if_pos hacc, countPrintable_ascii t ht]
    rfl

/-- A nonempty printable-ASCII byte sequence passes the output filter. -/
theorem isValidOutput_ascii (s : List Nat) (hne : s ≠ [])
    (h : ∀ b ∈ s, 32 ≤ b ∧ b ≤ 126) : isValidOutput s = true := by
  have hie : s.isEmpty = false := by
    cases s with
    | nil => exact absurd rfl hne
    | cons b t => rfl
  have hruns : utf8Runes s = s := utf8Runes_ascii s (fun b hb => by have := h b hb; omega)
  rw [isValidOutput, hie]
  simp only [Bool.false_eq_true, if_false]
  rw [hruns, countPrintable_ascii s h]
  exact decide_eq_true (by omega)

/-- The full computation of the pipeline on the single line `b64encode s`
for a printable-ASCII `s` of at least 3 bytes: one candidate, one decode,
one accepted output. -/
theorem findAndDecode_encode (s : List Nat) (hlen : 3 ≤ s.length)
    (hascii : ∀ b ∈ s, 32 ≤ b ∧ b ≤ 126) :
    findAndDecode defaultConfig [b64encode s] = (⟨1, 1, [s], []⟩, false) := by
  have h256 : ∀ b ∈ s, b < 256 := fun b hb => by have := hascii b hb; omega
  obtain ⟨r, p, henc, hall, hp, hmod, hrlen⟩ := b64encode_shape s h256
  have hr4 : 4 ≤ r.length := hrlen hlen
  have hne : ∀ c ∈ r, (c == '=') = false := by
    intro c hc
    have hstd := hall c hc
    by_cases he : c = '='
    · subst he
      rw [show isStdChar '=' = false from by decide] at hstd
      cases hstd
    · exact beq_eq_false_iff_ne.mpr he
  have hscan : findAll isStdChar (b64encode s) = [b64encode s] := by
    rw [henc]
    exact scan_full isStdChar r p hall hr4 hp (by decide)
  have hval : isValidBase64Length (b64encode s) = true := by
    rw [henc, isValidBase64Length, trimTrailingEq_append_replicate r p hne]
    exact decide_eq_true (by omega)
  have hminlen : defaultConfig.minLength ≤ (b64encode s).length := by
    rw [henc, List.length_append, List.length_replicate]
    show 4 ≤ r.length + p
    omega
  have hfind : findBase64Patterns defaultConfig (b64encode s) = [b64encode s] := by
    simp only [findBase64Patterns, show defaultConfig.urlSafe = false from rfl,
      Bool.false_eq_true, if_false]
    rw [hscan]
    simp [addMatches, hminlen, hval]
  have hdec : decodeBase64 defaultConfig (b64encode s) = some s := by
    simp only [decodeBase64, goDecode_encode s h256]
  have hsne : s ≠ [] := by
    intro h0
    rw [h0] at hlen
    simp at hlen
  have hvalid : isValidOutput s = true := isValidOutput_ascii s hsne hascii
  have hstep : stepMatch defaultConfig 1 initState (b64encode s) = ⟨1, 1, [s], []⟩ := by
    simp only [stepMatch, hdec]
    simp [hvalid, initState, emitLine, defaultConfig]
  have hrm : runMatches defaultConfig 1 initState [b64encode s] = (⟨1, 1, [s], []⟩, false) := by
    simp only [runMatches]
    rw [if_neg (by simp [initState, maxMatches]), hstep]
  simp only [findAndDecode, runLines, hfind, Nat.zero_add, hrm]
  rfl

/-- C8: the claim fails on the code for short strings.  The printable ASCII
string `A` encodes to `QQ==`, whose alphabet run has only 2 characters, so
the pattern (which demands at least 4) never matches — the pipeline output
is empty instead of reproducing `A`. -/
theorem c8_counterexample :
    b64encode (asciiBytes "A") = "QQ==".toList ∧
      (findAndDecode defaultConfig [b64encode (asciiBytes "A")]).1.stdout = [] ∧
      (findAndDecode defaultConfig [b64encode (asciiBytes "A")]).1.stdout ≠
        [asciiBytes "A"] := by
  refine ⟨by decide, by decide, by decide⟩

/-- C8 (amended): for every printable ASCII string of AT LEAST 3 BYTES,
encoding it with standard padded base64 and running the pipeline on that
line under the default configuration reproduces exactly the original string
as output.  (Strings of 0-2 bytes encode to fewer than 4 alphabet
characters and are never matched.) -/
theorem c8_roundtrip (s : List Nat) (hlen : 3 ≤ s.length)
    (hascii : ∀ b ∈ s, 32 ≤ b ∧ b ≤ 126) :
    (findAndDecode defaultConfig [b64encode s]).1.stdout = [s] := by
  rw [findAndDecode_encode s hlen hascii]

/-- C8 witness: the round trip evaluated at `abc`. -/
theorem c8_roundtrip_witness :
    3 ≤ (asciiBytes "abc").length ∧
      (findAndDecode defaultConfig [b64encode (asciiBytes "abc")]).1.stdout =
        [asciiBytes "abc"] :=
  ⟨by decide, c8_roundtrip (asciiBytes "abc") (by decide) (by decide)⟩

end B64D
